import Mathlib

/-!
Verification of the LRU cache in `src/LRUCache.py`.

The Python class `LRUCache` extends `collections.OrderedDict`.  We embed the
ordered dictionary as an association list `List (Key × Option Val)` whose
front is the oldest (least-recently-inserted, eviction candidate) entry and
whose back is the newest (most-recently-used) entry, exactly the iteration
order of a Python `OrderedDict`.  Python `None` stored as a value is
`Option.none`, so a stored value has type `Option Val`.

Semantics of the `OrderedDict` primitives used by the source:
- `self[key] = value`  : replaces the value in place if the key is present
  (the key keeps its position) and appends at the back otherwise;
- `popitem(last=False)`: removes the front item, raising `KeyError` on an
  empty dictionary;
- `move_to_end(key, last=True)`: unlinks the key and re-links it at the back;
- `super().get(key, None)`: value lookup, `None` when absent;
- `key in self`        : pure membership test, no mutation;
- `del self[key]`      : removes the key, raising `KeyError` when absent.

Operations that can raise return `Except Unit`, with `.error ()` standing
for the raised `KeyError`.
-/

namespace DSA

abbrev Key := Nat
abbrev Val := Nat

/-- Cache state: the fixed capacity (a Python `int`, possibly negative) and
the ordered entries of the underlying `OrderedDict`. -/
structure LRUCache where
  capacity : Int
  entries : List (Key × Option Val)
deriving Repr, DecidableEq

/-- Predicate picking the entries whose key is `k`. -/
def keyIs (k : Key) : Key × Option Val → Bool := fun p => p.1 == k

/-- Embeds `super().get(key, None)` before the flattening of the two `None`s:
the stored value of `k`, when `k` is resident. -/
def odLookup (es : List (Key × Option Val)) (k : Key) : Option (Option Val) :=
  (es.find? (keyIs k)).map Prod.snd

/-- Embeds `key in self`. -/
def odContains (es : List (Key × Option Val)) (k : Key) : Bool :=
  es.any (keyIs k)

/-- Embeds `self[key] = value`: replace the value in place when the key is
present (a dictionary holds each key at most once, so replacing the first
occurrence is the dictionary behavior), append at the back when absent. -/
def odSetItem (es : List (Key × Option Val)) (k : Key) (v : Option Val) :
    List (Key × Option Val) :=
  match es with
  | [] => [(k, v)]
  | p :: rest => if p.1 == k then (k, v) :: rest else p :: odSetItem rest k v

/-- Embeds `move_to_end(key, last=True)` for a resident key: unlink the entry
and re-link it at the back.  (The source only calls it on resident keys.) -/
def odMoveToEnd (es : List (Key × Option Val)) (k : Key) :
    List (Key × Option Val) :=
  match es.find? (keyIs k) with
  | none => es
  | some p => es.filter (fun q => ! keyIs k q) ++ [p]

/-- Embeds `LRUCache.__init__`: `super().__init__()` yields an empty
dictionary, and the capacity is stored without any validation. -/
def mkCache (capacity : Int) : LRUCache :=
  { capacity := capacity, entries := [] }

/-- Embeds `key in self` as a presence test. -/
def LRUCache.contains (c : LRUCache) (k : Key) : Bool :=
  odContains c.entries k

/-- Embeds `key in self` as an operation returning the result together with
the (unchanged) state, mirroring that `dict.__contains__` does not mutate. -/
def LRUCache.containsOp (c : LRUCache) (k : Key) : Bool × LRUCache :=
  (odContains c.entries k, c)

/-- Embeds `len(self)`. -/
def LRUCache.size (c : LRUCache) : Nat :=
  c.entries.length

/-- Embeds `LRUCache.put`: evict the front entry whenever
`len(self) >= self.capacity` (raising `KeyError` if the dictionary is empty,
since `popitem` does), then `self[key] = value`. -/
def LRUCache.put (c : LRUCache) (k : Key) (v : Option Val) :
    Except Unit LRUCache :=
  if (c.entries.length : Int) ≥ c.capacity then
    match c.entries with
    | [] => .error ()
    | _ :: rest => .ok { c with entries := odSetItem rest k v }
  else
    .ok { c with entries := odSetItem c.entries k v }

/-- Embeds `LRUCache.get`: `value = super().get(key, None)`; when that value
`is not None` the key is moved to the back; `value` is returned. -/
def LRUCache.get (c : LRUCache) (k : Key) : Option Val × LRUCache :=
  match (odLookup c.entries k).join with
  | none => (none, c)
  | some v => (some v, { c with entries := odMoveToEnd c.entries k })

/-- Embeds `LRUCache.update`: fall back to `put` when the key is absent,
otherwise `move_to_end` then `self[key] = new_value`. -/
def LRUCache.update (c : LRUCache) (k : Key) (v : Option Val) :
    Except Unit LRUCache :=
  if c.contains k then
    .ok { c with entries := odSetItem (odMoveToEnd c.entries k) k v }
  else
    c.put k v

/-- Embeds `del self[key]` (inherited `OrderedDict.__delitem__`): removes the
entry when present, raises `KeyError` when absent. -/
def LRUCache.delete (c : LRUCache) (k : Key) : Except Unit LRUCache :=
  if c.contains k then
    .ok { c with entries := c.entries.filter (fun q => ! keyIs k q) }
  else
    .error ()

/-- Mutating calls a client can make after construction. -/
inductive Op where
  | putOp (k : Key) (v : Option Val)
  | updOp (k : Key) (v : Option Val)
deriving Repr, DecidableEq

/-- Runs one call; a raised `KeyError` propagates to the caller and leaves
the cache state unchanged (the source mutates nothing before raising). -/
def applyOp (c : LRUCache) : Op → LRUCache
  | .putOp k v =>
    match c.put k v with
    | .ok c2 => c2
    | .error _ => c
  | .updOp k v =>
    match c.update k v with
    | .ok c2 => c2
    | .error _ => c

/-- Runs a sequence of calls from a given state. -/
def runOps (c : LRUCache) (ops : List Op) : LRUCache :=
  ops.foldl applyOp c

/-- Well-formedness of a dictionary state: keys are pairwise distinct. -/
def nodupKeys (c : LRUCache) : Prop :=
  (c.entries.map Prod.fst).Nodup

/-- Invariant of claim C6: the resident count never exceeds the capacity. -/
def sizeInv (c : LRUCache) : Prop :=
  (c.size : Int) ≤ c.capacity

/-! ### Basic lemmas about the dictionary primitives -/

theorem keyIs_iff {k : Key} {p : Key × Option Val} : keyIs k p = true ↔ p.1 = k := by
  simp [keyIs]

theorem odContains_iff {es : List (Key × Option Val)} {k : Key} :
    odContains es k = true ↔ ∃ p ∈ es, p.1 = k := by
  simp [odContains, List.any_eq_true, keyIs]

theorem odContains_false_iff {es : List (Key × Option Val)} {k : Key} :
    odContains es k = false ↔ ∀ p ∈ es, p.1 ≠ k := by
  simp [odContains, List.any_eq_false, keyIs]

theorem find?_eq_none_of_odContains {es : List (Key × Option Val)} {k : Key}
    (h : odContains es k = false) : es.find? (keyIs k) = none := by
  rw [List.find?_eq_none]
  intro p hp
  simp only [keyIs, beq_iff_eq]
  exact odContains_false_iff.mp h p hp

theorem odContains_odSetItem (es : List (Key × Option Val)) (k : Key) (v : Option Val)
    (k2 : Key) :
    odContains (odSetItem es k v) k2 = ((k2 == k) || odContains es k2) := by
  induction es with
  | nil =>
    by_cases h : k2 = k
    · subst h; simp [odSetItem, odContains, keyIs]
    · simp [odSetItem, odContains, keyIs, h, Ne.symm h]
  | cons p rest ih =>
    by_cases hp : p.1 = k
    · subst hp
      by_cases h2 : k2 = p.1
      · subst h2; simp [odSetItem, odContains, keyIs]
      · simp [odSetItem, odContains, keyIs, h2, Ne.symm h2]
    · have hp2 : (p.1 == k) = false := by simp [hp]
      simp only [odSetItem, hp2, Bool.false_eq_true, if_false, odContains, List.any_cons]
      rw [← odContains, ← odContains, ih]
      cases keyIs k2 p <;> cases (k2 == k) <;> simp

theorem odLookup_cons_eq {p : Key × Option Val} {es : List (Key × Option Val)} {k2 : Key}
    (h : keyIs k2 p = true) : odLookup (p :: es) k2 = some p.2 := by
  simp [odLookup, List.find?_cons, h]

theorem odLookup_cons_ne {p : Key × Option Val} {es : List (Key × Option Val)} {k2 : Key}
    (h : keyIs k2 p = false) : odLookup (p :: es) k2 = odLookup es k2 := by
  simp [odLookup, List.find?_cons, h]

theorem odLookup_odSetItem_self (es : List (Key × Option Val)) (k : Key) (v : Option Val) :
    odLookup (odSetItem es k v) k = some v := by
  induction es with
  | nil => simp [odSetItem, odLookup, List.find?, keyIs]
  | cons p rest ih =>
    by_cases hp : p.1 = k
    · have hp2 : (p.1 == k) = true := by simp [hp]
      simp [odSetItem, hp2, odLookup, List.find?, keyIs]
    · have hp2 : (p.1 == k) = false := by simp [hp]
      have hs : odSetItem (p :: rest) k v = p :: odSetItem rest k v := by
        simp [odSetItem, hp2]
      rw [hs, odLookup_cons_ne (by simp [keyIs, hp])]
      exact ih

theorem odLookup_odSetItem_ne (es : List (Key × Option Val)) (k : Key) (v : Option Val)
    (k2 : Key) (h : k2 ≠ k) :
    odLookup (odSetItem es k v) k2 = odLookup es k2 := by
  induction es with
  | nil =>
    have hk : keyIs k2 (k, v) = false := by simp [keyIs, Ne.symm h]
    show odLookup [(k, v)] k2 = odLookup [] k2
    rw [odLookup_cons_ne hk]
  | cons p rest ih =>
    by_cases hp : p.1 = k
    · have hp2 : (p.1 == k) = true := by simp [hp]
      have hs : odSetItem (p :: rest) k v = (k, v) :: rest := by
        simp [odSetItem, hp2]
      rw [hs, odLookup_cons_ne (by simp [keyIs, Ne.symm h]),
        odLookup_cons_ne (by simp [keyIs, hp, Ne.symm h])]
    · have hp2 : (p.1 == k) = false := by simp [hp]
      have hs : odSetItem (p :: rest) k v = p :: odSetItem rest k v := by
        simp [odSetItem, hp2]
      by_cases hq : p.1 = k2
      · rw [hs, odLookup_cons_eq (by simp [keyIs, hq]),
          odLookup_cons_eq (by simp [keyIs, hq])]
      · rw [hs, odLookup_cons_ne (by simp [keyIs, hq]),
          odLookup_cons_ne (by simp [keyIs, hq])]
        exact ih

theorem length_odSetItem (es : List (Key × Option Val)) (k : Key) (v : Option Val) :
    (odSetItem es k v).length =
      if odContains es k then es.length else es.length + 1 := by
  induction es with
  | nil => simp [odSetItem, odContains]
  | cons p rest ih =>
    by_cases hp : p.1 = k
    · have hp2 : (p.1 == k) = true := by simp [hp]
      have hc : odContains (p :: rest) k = true := odContains_iff.mpr ⟨p, by simp, hp⟩
      simp [odSetItem, hp2, hc]
    · have hp2 : (p.1 == k) = false := by simp [hp]
      have hk : keyIs k p = false := by simp [keyIs, hp]
      have hc : odContains (p :: rest) k = odContains rest k := by
        simp [odContains, hk]
      simp only [odSetItem, hp2, Bool.false_eq_true, if_false, List.length_cons, ih, hc]
      by_cases h : odContains rest k = true <;> simp [h]

theorem length_odSetItem_le (es : List (Key × Option Val)) (k : Key) (v : Option Val) :
    (odSetItem es k v).length ≤ es.length + 1 := by
  rw [length_odSetItem]
  by_cases h : odContains es k = true <;> simp [h]

theorem length_odSetItem_of_contains {es : List (Key × Option Val)} {k : Key}
    (v : Option Val) (h : odContains es k = true) :
    (odSetItem es k v).length = es.length := by
  rw [length_odSetItem, if_pos h]

theorem odSetItem_append_key (l : List (Key × Option Val)) (k : Key) (w v : Option Val)
    (h : ∀ p ∈ l, p.1 ≠ k) :
    odSetItem (l ++ [(k, w)]) k v = l ++ [(k, v)] := by
  induction l with
  | nil => simp [odSetItem]
  | cons p rest ih =>
    have hp : (p.1 == k) = false := by simp [h p (by simp)]
    have hs : odSetItem (p :: (rest ++ [(k, w)])) k v
        = p :: odSetItem (rest ++ [(k, w)]) k v := by
      simp [odSetItem, hp]
    simp only [List.cons_append, hs, ih (fun q hq => h q (by simp [hq]))]

/-! ### Lemmas about filtering out a key and about `odMoveToEnd` -/

theorem find?_filter_of_imp {α : Type} (l : List α) (p q : α → Bool)
    (h : ∀ x, p x = true → q x = true) :
    (l.filter q).find? p = l.find? p := by
  induction l with
  | nil => simp
  | cons a t ih =>
    by_cases hq : q a = true
    · by_cases hp : p a = true
      · simp [List.filter_cons, hq, List.find?_cons, hp]
      · have hp2 : p a = false := by simpa using hp
        simp [List.filter_cons, hq, List.find?_cons, hp2, ih]
    · have hq2 : q a = false := by simpa using hq
      have hp2 : p a = false := by
        cases hpa : p a
        · rfl
        · exact absurd (h a hpa) hq
      simp [List.filter_cons, hq2, List.find?_cons, hp2, ih]

theorem odLookup_filter_ne (es : List (Key × Option Val)) (k k2 : Key) (h : k2 ≠ k) :
    odLookup (es.filter (fun q => ! keyIs k q)) k2 = odLookup es k2 := by
  unfold odLookup
  rw [find?_filter_of_imp]
  intro x hx
  have : x.1 = k2 := keyIs_iff.mp hx
  simp [keyIs, this, h]

theorem map_fst_filter_key (es : List (Key × Option Val)) (k : Key) :
    (es.filter (fun q => ! keyIs k q)).map Prod.fst
      = (es.map Prod.fst).filter (fun a => ! (a == k)) := by
  induction es with
  | nil => simp
  | cons p rest ih =>
    have ih2 : List.map Prod.fst (List.filter (fun q => ! (q.1 == k)) rest)
        = List.filter (fun a => ! (a == k)) (List.map Prod.fst rest) := by
      simpa [keyIs] using ih
    by_cases hp : p.1 = k <;> simp [List.filter_cons, keyIs, hp, ih2]

theorem length_filter_key_lt {es : List (Key × Option Val)} {k : Key}
    (h : odContains es k = true) :
    (es.filter (fun q => ! keyIs k q)).length < es.length := by
  induction es with
  | nil => simp [odContains] at h
  | cons p rest ih =>
    by_cases hp : keyIs k p = true
    · calc ((p :: rest).filter (fun q => ! keyIs k q)).length
          = (rest.filter (fun q => ! keyIs k q)).length := by
            simp [List.filter_cons, hp]
        _ ≤ rest.length := List.length_filter_le _ _
        _ < (p :: rest).length := by simp
    · have hp2 : keyIs k p = false := by simpa using hp
      have hrest : odContains rest k = true := by
        rcases odContains_iff.mp h with ⟨q, hq, hq2⟩
        rcases List.mem_cons.mp hq with h1 | h1
        · exact absurd (keyIs_iff.mpr (h1 ▸ hq2)) hp
        · exact odContains_iff.mpr ⟨q, h1, hq2⟩
      have := ih hrest
      simp only [List.filter_cons, hp2, Bool.not_false, if_pos, List.length_cons]
      omega

theorem odContains_filter_self (es : List (Key × Option Val)) (k : Key) :
    odContains (es.filter (fun q => ! keyIs k q)) k = false := by
  rw [odContains_false_iff]
  intro p hp
  have := List.of_mem_filter hp
  intro h
  simp [keyIs, h] at this

theorem find?_of_odContains {es : List (Key × Option Val)} {k : Key}
    (h : odContains es k = true) :
    ∃ w, es.find? (keyIs k) = some (k, w) := by
  rcases odContains_iff.mp h with ⟨p, hp, hp2⟩
  have hsome : (es.find? (keyIs k)).isSome := by
    rw [List.find?_isSome]
    exact ⟨p, hp, keyIs_iff.mpr hp2⟩
  rcases Option.isSome_iff_exists.mp hsome with ⟨q, hq⟩
  have hq2 : q.1 = k := keyIs_iff.mp (List.find?_some hq)
  have hq3 : q = (k, q.2) := by
    cases q with
    | mk a b =>
      simp only at hq2
      simp [hq2]
  exact ⟨q.2, by rw [hq, hq3]⟩

theorem odMoveToEnd_of_contains {es : List (Key × Option Val)} {k : Key}
    (h : odContains es k = true) :
    ∃ w, es.find? (keyIs k) = some (k, w) ∧
      odMoveToEnd es k = es.filter (fun q => ! keyIs k q) ++ [(k, w)] := by
  rcases find?_of_odContains h with ⟨w, hw⟩
  exact ⟨w, hw, by simp [odMoveToEnd, hw]⟩

/-! ### Case analyses for the public operations -/

theorem put_full_empty {c : LRUCache} (k : Key) (v : Option Val)
    (hge : (c.entries.length : Int) ≥ c.capacity) (he : c.entries = []) :
    c.put k v = .error () := by
  have h0 : c.capacity ≤ 0 := by
    have h1 := hge
    rw [he] at h1
    simpa using h1
  simp [LRUCache.put, he, h0]

theorem put_full_cons {c : LRUCache} (k : Key) (v : Option Val)
    {p : Key × Option Val} {rest : List (Key × Option Val)}
    (hge : (c.entries.length : Int) ≥ c.capacity) (he : c.entries = p :: rest) :
    c.put k v = .ok { c with entries := odSetItem rest k v } := by
  have h0 : c.capacity ≤ (rest.length : Int) + 1 := by
    have h1 := hge
    rw [he] at h1
    simp only [List.length_cons] at h1
    push_cast at h1 ⊢
    omega
  simp [LRUCache.put, he, h0]

theorem put_not_full {c : LRUCache} (k : Key) (v : Option Val)
    (hlt : (c.entries.length : Int) < c.capacity) :
    c.put k v = .ok { c with entries := odSetItem c.entries k v } := by
  have : ¬ ((c.entries.length : Int) ≥ c.capacity) := by omega
  simp [LRUCache.put, this]

theorem update_present {c : LRUCache} (k : Key) (v : Option Val)
    (h : c.contains k = true) :
    c.update k v = .ok { c with entries := odSetItem (odMoveToEnd c.entries k) k v } := by
  simp [LRUCache.update, h]

theorem update_absent {c : LRUCache} (k : Key) (v : Option Val)
    (h : c.contains k = false) :
    c.update k v = c.put k v := by
  simp [LRUCache.update, h]

theorem capacity_put {c : LRUCache} {k : Key} {v : Option Val} {c2 : LRUCache}
    (h : c.put k v = .ok c2) : c2.capacity = c.capacity := by
  by_cases hge : (c.entries.length : Int) ≥ c.capacity
  · cases he : c.entries with
    | nil => rw [put_full_empty k v hge he] at h; exact absurd h (by simp)
    | cons p rest =>
      rw [put_full_cons k v hge he] at h
      cases h
      rfl
  · rw [put_not_full k v (by omega)] at h
    cases h
    rfl

theorem size_put {c : LRUCache} {k : Key} {v : Option Val} {c2 : LRUCache}
    (h : c.put k v = .ok c2) :
    c2.size ≤ c.size ∨ ((c.entries.length : Int) < c.capacity ∧ c2.size ≤ c.size + 1) := by
  by_cases hge : (c.entries.length : Int) ≥ c.capacity
  · cases he : c.entries with
    | nil => rw [put_full_empty k v hge he] at h; exact absurd h (by simp)
    | cons p rest =>
      rw [put_full_cons k v hge he] at h
      cases h
      left
      have := length_odSetItem_le rest k v
      simp only [LRUCache.size, he, List.length_cons]
      omega
  · rw [put_not_full k v (by omega)] at h
    cases h
    right
    exact ⟨by omega, by simpa [LRUCache.size] using length_odSetItem_le c.entries k v⟩

theorem size_update_present {c : LRUCache} {k : Key} {v : Option Val} {c2 : LRUCache}
    (hk : c.contains k = true) (h : c.update k v = .ok c2) :
    c2.size ≤ c.size := by
  rw [update_present k v hk] at h
  cases h
  rcases odMoveToEnd_of_contains hk with ⟨w, _, hmv⟩
  have hc : odContains (odMoveToEnd c.entries k) k = true := by
    rw [hmv]
    exact odContains_iff.mpr ⟨(k, w), by simp, rfl⟩
  have h1 : (odSetItem (odMoveToEnd c.entries k) k v).length
      = (odMoveToEnd c.entries k).length := length_odSetItem_of_contains v hc
  have h2 : (odMoveToEnd c.entries k).length
      = (c.entries.filter (fun q => ! keyIs k q)).length + 1 := by
    rw [hmv]; simp
  have h3 := length_filter_key_lt hk
  simp only [LRUCache.size, h1, h2]
  omega

theorem sizeInv_put {c : LRUCache} {k : Key} {v : Option Val} {c2 : LRUCache}
    (hinv : sizeInv c) (h : c.put k v = .ok c2) : sizeInv c2 := by
  have hcap := capacity_put h
  rcases size_put h with h1 | ⟨h1, h2⟩
  · unfold sizeInv at hinv ⊢
    rw [hcap]
    have : (c2.size : Int) ≤ (c.size : Int) := by exact_mod_cast h1
    omega
  · unfold sizeInv at hinv ⊢
    rw [hcap]
    have : (c2.size : Int) ≤ (c.size : Int) + 1 := by exact_mod_cast h2
    simp only [LRUCache.size] at *
    omega

theorem capacity_update {c : LRUCache} {k : Key} {v : Option Val} {c2 : LRUCache}
    (h : c.update k v = .ok c2) : c2.capacity = c.capacity := by
  by_cases hk : c.contains k = true
  · rw [update_present k v hk] at h
    cases h
    rfl
  · rw [update_absent k v (by simpa using hk)] at h
    exact capacity_put h

theorem sizeInv_update {c : LRUCache} {k : Key} {v : Option Val} {c2 : LRUCache}
    (hinv : sizeInv c) (h : c.update k v = .ok c2) : sizeInv c2 := by
  by_cases hk : c.contains k = true
  · have h1 := size_update_present hk h
    have hcap := capacity_update h
    unfold sizeInv at hinv ⊢
    rw [hcap]
    have : (c2.size : Int) ≤ (c.size : Int) := by exact_mod_cast h1
    omega
  · rw [update_absent k v (by simpa using hk)] at h
    exact sizeInv_put hinv h

theorem sizeInv_applyOp (c : LRUCache) (op : Op) (hinv : sizeInv c) :
    sizeInv (applyOp c op) := by
  cases op with
  | putOp k v =>
    cases hput : c.put k v with
    | ok c2 => simpa [applyOp, hput] using sizeInv_put hinv hput
    | error e => simpa [applyOp, hput] using hinv
  | updOp k v =>
    cases hupd : c.update k v with
    | ok c2 => simpa [applyOp, hupd] using sizeInv_update hinv hupd
    | error e => simpa [applyOp, hupd] using hinv

theorem sizeInv_runOps (c : LRUCache) (ops : List Op) (hinv : sizeInv c) :
    sizeInv (runOps c ops) := by
  induction ops generalizing c with
  | nil => simpa [runOps] using hinv
  | cons op rest ih =>
    have h1 : runOps c (op :: rest) = runOps (applyOp c op) rest := rfl
    rw [h1]
    exact ih _ (sizeInv_applyOp c op hinv)

theorem capacity_applyOp (c : LRUCache) (op : Op) :
    (applyOp c op).capacity = c.capacity := by
  cases op with
  | putOp k v =>
    cases hput : c.put k v with
    | ok c2 => simpa [applyOp, hput] using capacity_put hput
    | error e => simp [applyOp, hput]
  | updOp k v =>
    cases hupd : c.update k v with
    | ok c2 => simpa [applyOp, hupd] using capacity_update hupd
    | error e => simp [applyOp, hupd]

theorem capacity_runOps (c : LRUCache) (ops : List Op) :
    (runOps c ops).capacity = c.capacity := by
  induction ops generalizing c with
  | nil => rfl
  | cons op rest ih =>
    have h1 : runOps c (op :: rest) = runOps (applyOp c op) rest := rfl
    rw [h1, ih, capacity_applyOp]

theorem odLookup_append_last (l : List (Key × Option Val)) (k : Key) (v : Option Val)
    (h : ∀ p ∈ l, p.1 ≠ k) :
    odLookup (l ++ [(k, v)]) k = some v := by
  induction l with
  | nil => simp [odLookup, List.find?, keyIs]
  | cons p rest ih =>
    rw [List.cons_append, odLookup_cons_ne (by simp [keyIs, h p (by simp)])]
    exact ih (fun q hq => h q (by simp [hq]))

theorem odLookup_append_last_ne (l : List (Key × Option Val)) (k : Key) (v : Option Val)
    (k2 : Key) (h : k2 ≠ k) :
    odLookup (l ++ [(k, v)]) k2 = odLookup l k2 := by
  induction l with
  | nil =>
    show odLookup [(k, v)] k2 = odLookup [] k2
    rw [odLookup_cons_ne (by simp [keyIs, Ne.symm h])]
  | cons p rest ih =>
    by_cases hp : keyIs k2 p = true
    · rw [List.cons_append, odLookup_cons_eq hp, odLookup_cons_eq hp]
    · have hp2 : keyIs k2 p = false := by simpa using hp
      rw [List.cons_append, odLookup_cons_ne hp2, odLookup_cons_ne hp2]
      exact ih

/-! ### Claims -/

/-- C1: the claim says that after a successful `put(K, V)` the key K sits at
the most-recently-used end, including the overwrite case.  The code violates
it: `self[key] = value` on a key that is already resident replaces the value
in place without moving the key, so after `put("a",1); put("b",2); put("a",99)`
on a capacity-3 cache key `a` (here `0`) is still at the head, while the
repository's own test `test_duplicate_put` asserts it is at the back. -/
theorem C1_put_overwrite_keeps_position :
    (runOps (mkCache 3)
        [Op.putOp 0 (some 1), Op.putOp 1 (some 2), Op.putOp 0 (some 99)]).entries
      = [(0, some 99), (1, some 2)] ∧
    ((runOps (mkCache 3)
        [Op.putOp 0 (some 1), Op.putOp 1 (some 2), Op.putOp 0 (some 99)]).entries.map
        Prod.fst).getLast? = some 1 := by
  constructor <;> rfl

/-- C2: the claim says that with `capacity == 0` a `put` is a harmless no-op.
The code violates it: `len(self) >= self.capacity` holds on the empty
dictionary, so `put` calls `popitem(last=False)` on an empty `OrderedDict`,
which raises `KeyError`, while the repository's own test `test_zero_capacity`
asserts the call returns normally and leaves the cache empty. -/
theorem C2_zero_capacity_put_raises (k : Key) (v : Option Val) :
    (mkCache 0).put k v = .error () := rfl

/-- C3 counterexample: the claim says a negative capacity is rejected at
construction; in the code `__init__` performs no validation, so constructing
with capacity `-1` succeeds and stores `-1` unclamped. -/
theorem C3_negative_capacity_accepted :
    mkCache (-1) = { capacity := -1, entries := [] } := rfl

/-- C3 amended: constructing a cache with `capacity < 0` succeeds without any
error; the negative value is stored unchanged (not clamped) and the new cache
is empty. -/
theorem C3_negative_capacity_stored_unclamped (n : Int) (h : n < 0) :
    (mkCache n).capacity = n ∧ (mkCache n).size = 0 ∧ (mkCache n).entries = [] :=
  ⟨rfl, rfl, rfl⟩

/-- C3 witness: the amended claim at capacity `-3`. -/
theorem C3_negative_capacity_stored_unclamped_witness :
    (-3 : Int) < 0 ∧
      ((mkCache (-3)).capacity = -3 ∧ (mkCache (-3)).size = 0 ∧
        (mkCache (-3)).entries = []) :=
  ⟨by decide, C3_negative_capacity_stored_unclamped (-3) (by decide)⟩

/-- C4 counterexample: the claim says `delete` of an absent key is a no-op and
not an error; the code inherits `OrderedDict.__delitem__`, so `del` of the
absent key `1` raises `KeyError`. -/
theorem C4_delete_absent_raises :
    (⟨3, [(0, some 1)]⟩ : LRUCache).delete 1 = .error () := rfl

/-- C4 amended: `delete(K)` raises a key-not-found error when K is absent;
when K is present it removes K and its ordering node, reports K absent
afterwards, and leaves every other key's value and relative position in the
recency ordering unchanged (it never evicts another entry). -/
theorem C4_delete_correct (c : LRUCache) (k : Key) :
    (c.contains k = false → c.delete k = .error ()) ∧
    (c.contains k = true → ∃ c2, c.delete k = .ok c2 ∧
      c2.capacity = c.capacity ∧
      c2.contains k = false ∧
      (∀ k2, k2 ≠ k → odLookup c2.entries k2 = odLookup c.entries k2) ∧
      c2.entries.map Prod.fst = (c.entries.map Prod.fst).filter (fun a => ! (a == k))) := by
  constructor
  · intro h
    simp [LRUCache.delete, h]
  · intro h
    refine ⟨{ c with entries := c.entries.filter (fun q => ! keyIs k q) }, ?_, rfl, ?_, ?_, ?_⟩
    · simp [LRUCache.delete, h]
    · simpa [LRUCache.contains] using odContains_filter_self c.entries k
    · intro k2 hk2
      exact odLookup_filter_ne c.entries k k2 hk2
    · exact map_fst_filter_key c.entries k

/-- C4 witness: both branches of the amended claim at concrete caches. -/
theorem C4_delete_correct_witness :
    ((⟨3, [(4, some 9)]⟩ : LRUCache).contains 7 = false ∧
      (⟨3, [(4, some 9)]⟩ : LRUCache).delete 7 = .error ()) ∧
    ((⟨3, [(4, some 9), (5, some 8)]⟩ : LRUCache).contains 4 = true ∧
      ∃ c2, (⟨3, [(4, some 9), (5, some 8)]⟩ : LRUCache).delete 4 = .ok c2 ∧
        c2.capacity = (⟨3, [(4, some 9), (5, some 8)]⟩ : LRUCache).capacity ∧
        c2.contains 4 = false ∧
        (∀ k2, k2 ≠ 4 →
          odLookup c2.entries k2
            = odLookup (⟨3, [(4, some 9), (5, some 8)]⟩ : LRUCache).entries k2) ∧
        c2.entries.map Prod.fst
          = ((⟨3, [(4, some 9), (5, some 8)]⟩ : LRUCache).entries.map Prod.fst).filter
              (fun a => ! (a == 4))) :=
  ⟨⟨by decide, (C4_delete_correct ⟨3, [(4, some 9)]⟩ 7).1 (by decide)⟩,
    ⟨by decide, (C4_delete_correct ⟨3, [(4, some 9), (5, some 8)]⟩ 4).2 (by decide)⟩⟩

/-- C5: whenever `put` is called on a cache that is at (or above) capacity
and non-empty, it succeeds and evicts exactly the head of the ordering (the
least-recently-used key): afterwards a key is resident exactly when it is the
inserted key or was resident before and is not the evicted head, and every
surviving key other than the inserted one keeps its stored value. -/
theorem C5_eviction_removes_head (c : LRUCache) (k hk : Key) (hv v : Option Val)
    (rest : List (Key × Option Val))
    (he : c.entries = (hk, hv) :: rest)
    (hfull : (c.entries.length : Int) ≥ c.capacity)
    (hnd : nodupKeys c) :
    ∃ c2, c.put k v = .ok c2 ∧
      (∀ k2, c2.contains k2 = true ↔ (k2 = k ∨ (c.contains k2 = true ∧ k2 ≠ hk))) ∧
      (∀ k2, k2 ≠ k → k2 ≠ hk → odLookup c2.entries k2 = odLookup c.entries k2) := by
  have hhd : odContains rest hk = false := by
    rw [odContains_false_iff]
    intro p hp hpk
    have hmem : hk ∈ rest.map Prod.fst := List.mem_map.mpr ⟨p, hp, hpk⟩
    have hnd2 := hnd
    rw [nodupKeys, he] at hnd2
    simp only [List.map_cons, List.nodup_cons] at hnd2
    exact hnd2.1 hmem
  refine ⟨{ c with entries := odSetItem rest k v }, put_full_cons k v hfull he, ?_, ?_⟩
  · intro k2
    have hset := odContains_odSetItem rest k v k2
    have hc : c.contains k2 = ((hk == k2) || odContains rest k2) := by
      simp [LRUCache.contains, he, odContains, keyIs]
    by_cases hkk : k2 = k
    · subst hkk
      constructor
      · intro _
        exact Or.inl rfl
      · intro _
        show odContains (odSetItem rest k2 v) k2 = true
        rw [hset]
        simp
    · by_cases hkh : k2 = hk
      · subst hkh
        constructor
        · intro hcon
          have : odContains (odSetItem rest k v) k2 = true := hcon
          rw [hset] at this
          simp [hkk, hhd] at this
        · rintro (h1 | ⟨_, h2⟩)
          · exact absurd h1 hkk
          · exact absurd rfl h2
      · constructor
        · intro hcon
          have h1 : odContains (odSetItem rest k v) k2 = true := hcon
          rw [hset] at h1
          simp only [Bool.or_eq_true, beq_iff_eq] at h1
          rcases h1 with h1 | h1
          · exact absurd h1 hkk
          · refine Or.inr ⟨?_, hkh⟩
            rw [hc]
            simp [h1]
        · rintro (h1 | ⟨h1, _⟩)
          · exact absurd h1 hkk
          · rw [hc] at h1
            simp only [Bool.or_eq_true, beq_iff_eq] at h1
            rcases h1 with h1 | h1
            · exact absurd h1.symm hkh
            · show odContains (odSetItem rest k v) k2 = true
              rw [hset]
              simp [h1]
  · intro k2 hk2 hkh
    show odLookup (odSetItem rest k v) k2 = odLookup c.entries k2
    rw [odLookup_odSetItem_ne rest k v k2 hk2, he,
      odLookup_cons_ne (by simp [keyIs, Ne.symm hkh])]

/-- C5 witness: a full capacity-2 cache; inserting key 7 evicts head key 5. -/
theorem C5_eviction_removes_head_witness :
    (⟨2, [(5, some 1), (6, some 2)]⟩ : LRUCache).entries = (5, some 1) :: [(6, some 2)] ∧
    ((⟨2, [(5, some 1), (6, some 2)]⟩ : LRUCache).entries.length : Int)
      ≥ (⟨2, [(5, some 1), (6, some 2)]⟩ : LRUCache).capacity ∧
    nodupKeys ⟨2, [(5, some 1), (6, some 2)]⟩ ∧
    (∃ c2, (⟨2, [(5, some 1), (6, some 2)]⟩ : LRUCache).put 7 (some 3) = .ok c2 ∧
      (∀ k2, c2.contains k2 = true ↔
        (k2 = 7 ∨ ((⟨2, [(5, some 1), (6, some 2)]⟩ : LRUCache).contains k2 = true ∧
          k2 ≠ 5))) ∧
      (∀ k2, k2 ≠ 7 → k2 ≠ 5 →
        odLookup c2.entries k2
          = odLookup (⟨2, [(5, some 1), (6, some 2)]⟩ : LRUCache).entries k2)) :=
  ⟨rfl, by decide, by unfold nodupKeys; decide,
    C5_eviction_removes_head ⟨2, [(5, some 1), (6, some 2)]⟩ 7 5 (some 1) (some 3)
      [(6, some 2)] rfl (by decide) (by unfold nodupKeys; decide)⟩

/-- C6: starting from a freshly constructed cache with non-negative capacity,
after any sequence of `put`/`update` calls (a call whose `KeyError` propagates
leaves the state unchanged) the resident count never exceeds the capacity;
since this holds for every sequence, it holds after every call of a
sequence. -/
theorem C6_capacity_bound (cap : Int) (hcap : 0 ≤ cap) (ops : List Op) :
    ((runOps (mkCache cap) ops).size : Int) ≤ cap := by
  have h0 : sizeInv (mkCache cap) := by
    simpa [sizeInv, mkCache, LRUCache.size] using hcap
  have h1 := sizeInv_runOps (mkCache cap) ops h0
  have h2 := capacity_runOps (mkCache cap) ops
  unfold sizeInv at h1
  rw [h2] at h1
  simpa [mkCache] using h1

/-- C6 witness: four calls on a capacity-2 cache, including one forcing
eviction and an `update` of a fresh key. -/
theorem C6_capacity_bound_witness :
    (0 : Int) ≤ 2 ∧
      ((runOps (mkCache 2)
          [Op.putOp 0 (some 1), Op.putOp 1 (some 2), Op.putOp 2 (some 3),
            Op.updOp 5 (some 4)]).size : Int) ≤ 2 :=
  ⟨by decide,
    C6_capacity_bound 2 (by decide)
      [Op.putOp 0 (some 1), Op.putOp 1 (some 2), Op.putOp 2 (some 3),
        Op.updOp 5 (some 4)]⟩

/-- C7: `update` on a resident key replaces the stored value, puts the key at
the most-recently-used end, and evicts nothing, with no condition on the
capacity: the result keeps every previously resident key, keeps every other
key's value and relative order, and does not grow. -/
theorem C7_update_present_mru_no_evict (c : LRUCache) (k : Key) (v : Option Val)
    (h : c.contains k = true) :
    ∃ c2, c.update k v = .ok c2 ∧
      c2.capacity = c.capacity ∧
      c2.size ≤ c.size ∧
      odLookup c2.entries k = some v ∧
      (c2.entries.map Prod.fst).getLast? = some k ∧
      (∀ k2, c.contains k2 = true → c2.contains k2 = true) ∧
      (∀ k2, k2 ≠ k → odLookup c2.entries k2 = odLookup c.entries k2) ∧
      c2.entries.filter (fun q => ! keyIs k q) = c.entries.filter (fun q => ! keyIs k q) := by
  rcases odMoveToEnd_of_contains (show odContains c.entries k = true from h) with ⟨w, hw, hmv⟩
  have hfilter_keys : ∀ p ∈ c.entries.filter (fun q => ! keyIs k q), p.1 ≠ k := by
    intro p hp hpk
    have hmem := List.of_mem_filter hp
    simp [keyIs, hpk] at hmem
  have hset : odSetItem (odMoveToEnd c.entries k) k v
      = c.entries.filter (fun q => ! keyIs k q) ++ [(k, v)] := by
    rw [hmv]
    exact odSetItem_append_key _ k w v hfilter_keys
  refine ⟨{ c with entries := c.entries.filter (fun q => ! keyIs k q) ++ [(k, v)] },
    ?_, rfl, ?_, ?_, ?_, ?_, ?_, ?_⟩
  · rw [update_present k v h, hset]
  · have h1 := length_filter_key_lt (show odContains c.entries k = true from h)
    simp only [LRUCache.size, List.length_append, List.length_cons, List.length_nil]
    omega
  · exact odLookup_append_last _ k v hfilter_keys
  · rw [List.map_append]
    exact List.getLast?_concat _
  · intro k2 hk2
    rcases odContains_iff.mp (show odContains c.entries k2 = true from hk2) with ⟨p, hp, hpk⟩
    by_cases hkk : k2 = k
    · subst hkk
      show odContains _ k2 = true
      exact odContains_iff.mpr ⟨(k2, v), by simp, rfl⟩
    · show odContains _ k2 = true
      refine odContains_iff.mpr ⟨p, ?_, hpk⟩
      refine List.mem_append.mpr (Or.inl (List.mem_filter.mpr ⟨hp, ?_⟩))
      simp [keyIs, hpk, hkk]
  · intro k2 hk2
    show odLookup _ k2 = odLookup c.entries k2
    rw [odLookup_append_last_ne _ k v k2 hk2]
    exact odLookup_filter_ne c.entries k k2 hk2
  · show (c.entries.filter (fun q => ! keyIs k q) ++ [(k, v)]).filter (fun q => ! keyIs k q)
      = c.entries.filter (fun q => ! keyIs k q)
    rw [List.filter_append]
    have h1 : ([(k, v)] : List (Key × Option Val)).filter (fun q => ! keyIs k q) = [] := by
      simp [keyIs]
    have h2 : (c.entries.filter (fun q => ! keyIs k q)).filter (fun q => ! keyIs k q)
        = c.entries.filter (fun q => ! keyIs k q) :=
      List.filter_eq_self.mpr (fun a ha => (List.mem_filter.mp ha).2)
    rw [h1, h2, List.append_nil]

/-- C7 witness: updating resident key 0 on a full capacity-2 cache. -/
theorem C7_update_present_mru_no_evict_witness :
    (⟨2, [(0, some 1), (1, some 2)]⟩ : LRUCache).contains 0 = true ∧
    (∃ c2, (⟨2, [(0, some 1), (1, some 2)]⟩ : LRUCache).update 0 (some 9) = .ok c2 ∧
      c2.capacity = (⟨2, [(0, some 1), (1, some 2)]⟩ : LRUCache).capacity ∧
      c2.size ≤ (⟨2, [(0, some 1), (1, some 2)]⟩ : LRUCache).size ∧
      odLookup c2.entries 0 = some (some 9) ∧
      (c2.entries.map Prod.fst).getLast? = some 0 ∧
      (∀ k2, (⟨2, [(0, some 1), (1, some 2)]⟩ : LRUCache).contains k2 = true →
        c2.contains k2 = true) ∧
      (∀ k2, k2 ≠ 0 →
        odLookup c2.entries k2
          = odLookup (⟨2, [(0, some 1), (1, some 2)]⟩ : LRUCache).entries k2) ∧
      c2.entries.filter (fun q => ! keyIs 0 q)
        = (⟨2, [(0, some 1), (1, some 2)]⟩ : LRUCache).entries.filter
            (fun q => ! keyIs 0 q)) :=
  ⟨by decide,
    C7_update_present_mru_no_evict ⟨2, [(0, some 1), (1, some 2)]⟩ 0 (some 9) (by decide)⟩

/-- C8: `get` of an absent key returns the absent marker (`None`) and returns
the cache state entirely unchanged, and the membership test embedding
`key in self` returns its answer together with the unchanged state for every
key (the source's `__contains__` performs no mutation). -/
theorem C8_get_absent_no_change (c : LRUCache) (k : Key) (h : c.contains k = false) :
    c.get k = (none, c) ∧ ∀ k2, c.containsOp k2 = (c.contains k2, c) := by
  constructor
  · have h1 : c.entries.find? (keyIs k) = none :=
      find?_eq_none_of_odContains (show odContains c.entries k = false from h)
    simp [LRUCache.get, odLookup, h1]
  · intro k2
    rfl

/-- C8 witness: key 9 is absent from a two-entry cache. -/
theorem C8_get_absent_no_change_witness :
    (⟨3, [(0, some 1), (1, some 2)]⟩ : LRUCache).contains 9 = false ∧
    ((⟨3, [(0, some 1), (1, some 2)]⟩ : LRUCache).get 9
        = (none, ⟨3, [(0, some 1), (1, some 2)]⟩) ∧
      ∀ k2, (⟨3, [(0, some 1), (1, some 2)]⟩ : LRUCache).containsOp k2
        = ((⟨3, [(0, some 1), (1, some 2)]⟩ : LRUCache).contains k2,
            ⟨3, [(0, some 1), (1, some 2)]⟩)) :=
  ⟨by decide, C8_get_absent_no_change ⟨3, [(0, some 1), (1, some 2)]⟩ 9 (by decide)⟩

/-- C9: `update` of an absent key is literally a call to `put` with the same
arguments, so the two return the same result on every such cache, including
any eviction or error `put` produces. -/
theorem C9_update_absent_eq_put (c : LRUCache) (k : Key) (v : Option Val)
    (h : c.contains k = false) :
    c.update k v = c.put k v :=
  update_absent k v h

/-- C9 witness: key 1 is absent from a full capacity-1 cache, so the update
behaves as the eviction-triggering put. -/
theorem C9_update_absent_eq_put_witness :
    (⟨1, [(0, some 1)]⟩ : LRUCache).contains 1 = false ∧
      (⟨1, [(0, some 1)]⟩ : LRUCache).update 1 (some 2)
        = (⟨1, [(0, some 1)]⟩ : LRUCache).put 1 (some 2) :=
  ⟨by decide, C9_update_absent_eq_put ⟨1, [(0, some 1)]⟩ 1 (some 2) (by decide)⟩

/-- C10: when key K is resident with stored value `None`, `get(K)` returns
`None` — indistinguishable from the absent case — and, because the code only
calls `move_to_end` when the looked-up value `is not None`, the cache state
(in particular the recency ordering) is left entirely unchanged. -/
theorem C10_get_none_value_no_move (c : LRUCache) (k : Key)
    (h : odLookup c.entries k = some none) :
    c.get k = (none, c) := by
  simp [LRUCache.get, h]

/-- C10 witness: key 0 is resident with stored value `None`. -/
theorem C10_get_none_value_no_move_witness :
    odLookup (⟨3, [(0, none), (1, some 2)]⟩ : LRUCache).entries 0 = some none ∧
      (⟨3, [(0, none), (1, some 2)]⟩ : LRUCache).get 0
        = (none, ⟨3, [(0, none), (1, some 2)]⟩) :=
  ⟨by decide, C10_get_none_value_no_move ⟨3, [(0, none), (1, some 2)]⟩ 0 (by decide)⟩

end DSA
